import Mathlib

/-!
Verification of the hybrid-retrieval core of the F1-Strategist repository.

The TypeScript sources `server/rag.ts` and `server/storage.ts` are shallowly
embedded below.  JavaScript numbers are modelled as rationals (`ℚ`).  The two
transcendental library functions that the code calls, `Math.log` and
`Math.sqrt`, are taken as function parameters (`log : ℚ → ℚ`,
`sqrt : ℚ → ℚ`): every theorem below is proved for an arbitrary
interpretation of them, and concrete evaluations instantiate them with a
sign-faithful rational stand-in.  External asynchronous collaborators
(the embedding provider and the chat-completion provider) are modelled by
passing their observable outputs as explicit arguments, exactly where the
source reads them.
-/

namespace F1

/-- Character-level model of the JavaScript `\s` / `trim` whitespace class
(the sources only ever meet ASCII whitespace). -/
def isWsChar (c : Char) : Bool :=
  c = ' ' ∨ c = '\t' ∨ c = '\n' ∨ c = '\r'

/-- ASCII lower-casing of one character (the sources' vocabularies, queries
and documents are ASCII, where `toLowerCase` is exactly this table). -/
def toLowerChar : Char → Char
  | 'A' => 'a' | 'B' => 'b' | 'C' => 'c' | 'D' => 'd' | 'E' => 'e' | 'F' => 'f'
  | 'G' => 'g' | 'H' => 'h' | 'I' => 'i' | 'J' => 'j' | 'K' => 'k' | 'L' => 'l'
  | 'M' => 'm' | 'N' => 'n' | 'O' => 'o' | 'P' => 'p' | 'Q' => 'q' | 'R' => 'r'
  | 'S' => 's' | 'T' => 't' | 'U' => 'u' | 'V' => 'v' | 'W' => 'w' | 'X' => 'x'
  | 'Y' => 'y' | 'Z' => 'z'
  | c => c

/-- Model of `String.prototype.toLowerCase` on the character list. -/
def toLowerChars (cs : List Char) : List Char :=
  cs.map toLowerChar

/-- Model of `String.prototype.includes`: `needle` occurs contiguously in
`hay`. -/
def containsSub (needle : List Char) : List Char → Bool
  | [] => needle.isEmpty
  | c :: rest => needle.isPrefixOf (c :: rest) || containsSub needle rest

/-- Matching of one regular-expression literal at the head of `hay`.  The
sources build regexes directly from query tokens (`new RegExp(term, "gi")`);
we model the fragment of JavaScript regex syntax those tokens can exercise in
the claims: ordinary characters match themselves and `.` matches any single
character. -/
def regexHeadMatch : List Char → List Char → Bool
  | [], _ => true
  | _ :: _, [] => false
  | p :: ps, h :: hs => (p = '.' ∨ p = h) && regexHeadMatch ps hs

/-- Number of successive non-overlapping matches of pattern `pat` found by a
global regex scan over `hay`, as `String.prototype.match(.., "g")` counts
them.  `fuel` bounds the scan (callers pass the length of `hay`). -/
def countMatchesFuel (pat : List Char) : Nat → List Char → Nat
  | 0, _ => 0
  | _ + 1, [] => 0
  | fuel + 1, c :: rest =>
    if regexHeadMatch pat (c :: rest) ∧ pat ≠ [] then
      1 + countMatchesFuel pat fuel ((c :: rest).drop pat.length)
    else
      countMatchesFuel pat fuel rest

/-- Model of `String.prototype.match(new RegExp(term, "gi")).length`. -/
def countMatches (pat hay : List Char) : Nat :=
  countMatchesFuel pat (hay.length + 1) hay

/-- Worker for `split(/\s+/)`: emits the piece accumulated so far (reversed
in `accRev`) whenever a maximal whitespace run ends.  `inSep` records that
the scan is inside a whitespace run. -/
def splitWsGo : List Char → List Char → Bool → List (List Char)
  | [], accRev, inSep =>
    if inSep then [accRev.reverse, []] else [accRev.reverse]
  | c :: rest, accRev, inSep =>
    if inSep then
      if isWsChar c then splitWsGo rest accRev true
      else accRev.reverse :: splitWsGo rest [c] false
    else
      if isWsChar c then splitWsGo rest accRev true
      else splitWsGo rest (c :: accRev) false

/-- Model of `query.split(/\s+/)`. -/
def splitWs (cs : List Char) : List (List Char) :=
  splitWsGo cs [] false

/-- Is the character a JavaScript sentence terminator (`[.!?]`)? -/
def isSentEnd (c : Char) : Bool :=
  c = '.' ∨ c = '!' ∨ c = '?'

/-- Does the piece accumulated so far (reversed) end with a sentence
terminator?  This realises the lookbehind `(?<=[.!?])`. -/
def headIsSentEnd : List Char → Bool
  | [] => false
  | p :: _ => isSentEnd p

/-- Worker for `content.split(/(?<=[.!?])\s+/)`: a separator is a maximal
whitespace run whose preceding character is a sentence terminator. -/
def splitSentencesGo : List Char → List Char → Bool → List (List Char)
  | [], accRev, inSep =>
    if inSep then [accRev.reverse, []] else [accRev.reverse]
  | c :: rest, accRev, inSep =>
    if inSep then
      if isWsChar c then splitSentencesGo rest accRev true
      else accRev.reverse :: splitSentencesGo rest [c] false
    else
      if isWsChar c ∧ headIsSentEnd accRev then splitSentencesGo rest accRev true
      else splitSentencesGo rest (c :: accRev) false

/-- Model of the sentence splitter `content.split(/(?<=[.!?])\s+/)`. -/
def splitSentences (cs : List Char) : List (List Char) :=
  splitSentencesGo cs [] false

/-- Model of `String.prototype.trim`. -/
def trimChars (cs : List Char) : List Char :=
  ((cs.dropWhile isWsChar).reverse.dropWhile isWsChar).reverse

/-- Model of `Math.max(...values, floor)`. -/
def listMax (floor : ℚ) (values : List ℚ) : ℚ :=
  values.foldl max floor

/-- Model of `Map.prototype.set`: replace the value of an existing key in
place (JavaScript maps keep the original insertion position), otherwise
append a new entry. -/
def jsMapSet {β : Type} (m : List (String × β)) (k : String) (v : β) :
    List (String × β) :=
  match m with
  | [] => [(k, v)]
  | (k', v') :: rest =>
    if k' = k then (k, v) :: rest else (k', v') :: jsMapSet rest k v

/-- Model of `map.get(k) || d` for maps whose stored values make the default
kick in exactly when the key is absent or its value equals the default. -/
def mapGetD {β : Type} [Inhabited β] (m : List (String × β)) (k : String)
    (d : β) : β :=
  match m.find? (fun p => p.1 = k) with
  | some p => p.2
  | none => d

/-- Model of `map.has(k)` / key membership. -/
def mapHasKey {β : Type} (m : List (String × β)) (k : String) : Bool :=
  (m.find? (fun p => p.1 = k)).isSome

/-! ### Data model (shared/schema.ts) -/

/-- Document record, as stored by `MemStorage` (`createdAt` is an abstract
timestamp). -/
structure Document where
  id : String
  title : String
  content : String
  type : String
  source : Option String
  url : Option String
  createdAt : Nat
  deriving DecidableEq, Repr

/-- Chunk metadata (`ChunkMetadata` in shared/schema.ts). -/
structure ChunkMetadata where
  documentTitle : String
  documentType : String
  source : Option String
  startPosition : Nat
  endPosition : Nat
  keywords : List String
  deriving DecidableEq, Repr

/-- Stored chunk (`Chunk` in shared/schema.ts); `embedding` is `null` or a
numeric vector. -/
structure Chunk where
  id : String
  documentId : String
  content : String
  chunkIndex : Nat
  embedding : Option (List ℚ)
  metadata : ChunkMetadata
  deriving DecidableEq, Repr

/-- Transient retrieval result (`RetrievedChunk` in shared/schema.ts). -/
structure RetrievedChunk where
  id : String
  content : String
  documentId : String
  metadata : ChunkMetadata
  vectorScore : ℚ
  bm25Score : ℚ
  combinedScore : ℚ
  deriving DecidableEq, Repr

/-- Chunk as produced by the chunker, before storage assigns an id
(`Omit<Chunk, "id">` in rag.ts). -/
structure NewChunk where
  documentId : String
  content : String
  chunkIndex : Nat
  embedding : Option (List ℚ)
  metadata : ChunkMetadata
  deriving DecidableEq, Repr

/-! ### RAG configuration constants (rag.ts) -/

def CHUNK_SIZE : Nat := 500

def CHUNK_OVERLAP : Nat := 100

/-! ### Keyword extraction (rag.ts, extractKeywords) -/

/-- Fixed F1 jargon vocabulary from `extractKeywords`. -/
def f1Terms : List String :=
  ["pit stop", "tire", "strategy", "DRS", "overtake", "qualifying",
   "pole position", "fastest lap", "safety car", "VSC", "red flag",
   "undercut", "overcut", "medium", "soft", "hard", "intermediate",
   "wet", "slick", "degradation", "graining", "blistering",
   "downforce", "drag", "aero", "ERS", "battery", "deployment",
   "sector", "lap time", "gap", "delta", "pace", "stint"]

/-- Fixed entity vocabulary from `extractKeywords`. -/
def entities : List String :=
  ["verstappen", "hamilton", "leclerc", "norris", "sainz", "russell",
   "perez", "alonso", "stroll", "gasly", "ocon", "tsunoda",
   "red bull", "ferrari", "mercedes", "mclaren", "aston martin",
   "alpine", "williams", "haas", "alfa romeo", "alphatauri",
   "monaco", "silverstone", "monza", "spa", "suzuka", "interlagos"]

/-- Model of `extractKeywords`.  The source inserts matching vocabulary terms
into a `Set` (jargon list first, then entities) and keeps the first ten; the
two vocabularies are duplicate-free and disjoint, so the set in insertion
order is the concatenation of the two filtered lists.  (The source also
computes a `words` array that it never uses; it is omitted.) -/
def extractKeywords (text : List Char) : List String :=
  let lower := toLowerChars text
  ((f1Terms.filter fun term => containsSub term.toList lower) ++
    (entities.filter fun term => containsSub term.toList lower)).take 10

/-! ### Chunker (rag.ts, chunkDocument) -/

/-- Loop state of `chunkDocument`: the accumulating buffer (`currentChunk`),
the running `chunkIndex` and `startPosition`, and the chunks emitted so
far. -/
structure ChunkState where
  buffer : List Char
  chunkIndex : Nat
  startPosition : Nat
  out : List NewChunk
  deriving Repr

/-- Metadata built when `chunkDocument` emits the current buffer. -/
def chunkMetadataFor (doc : Document) (startPosition : Nat) (buffer : List Char) :
    ChunkMetadata :=
  { documentTitle := doc.title
    documentType := doc.type
    source := doc.source
    startPosition := startPosition
    endPosition := startPosition + buffer.length
    keywords := extractKeywords buffer }

/-- One iteration of the sentence loop in `chunkDocument`.  Natural-number
subtraction realises `Math.max(0, currentChunk.length - CHUNK_OVERLAP)` and
`List.drop` realises `String.prototype.slice`. -/
def chunkStep (doc : Document) (st : ChunkState) (sentence : List Char) :
    ChunkState :=
  if st.buffer.length + sentence.length > CHUNK_SIZE ∧ st.buffer.length > 0 then
    { buffer := st.buffer.drop (st.buffer.length - CHUNK_OVERLAP) ++ sentence
      chunkIndex := st.chunkIndex + 1
      startPosition := st.startPosition + (st.buffer.length - CHUNK_OVERLAP)
      out := st.out ++
        [{ documentId := doc.id
           content := String.mk (trimChars st.buffer)
           chunkIndex := st.chunkIndex
           embedding := none
           metadata := chunkMetadataFor doc st.startPosition st.buffer }] }
  else
    { st with
      buffer := st.buffer ++ (if st.buffer.isEmpty then [] else [' ']) ++ sentence }

/-- State of the sentence loop of `chunkDocument` after all sentences have
been consumed. -/
def chunkFoldState (doc : Document) : ChunkState :=
  (splitSentences doc.content.toList).foldl (chunkStep doc) ⟨[], 0, 0, []⟩

/-- Model of `chunkDocument`: run the sentence loop, then emit the residual
buffer as a final chunk when it still holds non-whitespace text. -/
def chunkDocument (doc : Document) : List NewChunk :=
  if (trimChars (chunkFoldState doc).buffer).isEmpty then (chunkFoldState doc).out
  else
    (chunkFoldState doc).out ++
      [{ documentId := doc.id
         content := String.mk (trimChars (chunkFoldState doc).buffer)
         chunkIndex := (chunkFoldState doc).chunkIndex
         embedding := none
         metadata := chunkMetadataFor doc (chunkFoldState doc).startPosition
           (chunkFoldState doc).buffer }]

/-! ### BM25 keyword search (rag.ts, bm25Search) -/

/-- Inverse document frequency of one query term.  The source precomputes
these values in a map keyed by the (unchanged) query terms and reads them
back with `idf.get(term) || 0`; since every lookup key was inserted and a
stored value of `0` is replaced by the identical default `0`, reading the
map is the same as evaluating this function. -/
def idfFor (log : ℚ → ℚ) (chunks : List Chunk) (term : List Char) : ℚ :=
  let df : Nat :=
    (chunks.filter fun c => containsSub term (toLowerChars c.content.toList)).length
  log (((chunks.length : ℚ) - (df : ℚ) + 1 / 2) / ((df : ℚ) + 1 / 2) + 1)

/-- Summed BM25 contribution of all query terms to one chunk. -/
def bm25ChunkScore (log : ℚ → ℚ) (chunks : List Chunk)
    (queryTerms : List (List Char)) (avgDL : ℚ) (chunk : Chunk) : ℚ :=
  let k1 : ℚ := 12 / 10
  let b : ℚ := 3 / 4
  let content := toLowerChars chunk.content.toList
  let dl : ℚ := (content.length : ℚ)
  (queryTerms.map fun term =>
    let tf : ℚ := (countMatches term content : ℚ)
    idfFor log chunks term *
      ((tf * (k1 + 1)) / (tf + k1 * (1 - b + b * (dl / avgDL))))).sum

/-- Query tokenisation of `bm25Search`:
`query.toLowerCase().split(/\s+/).filter(t => t.length > 2)`. -/
def bm25QueryTerms (query : String) : List (List Char) :=
  (splitWs (toLowerChars query.toList)).filter fun t => t.length > 2

/-- Average document length over the corpus (`avgDL`). -/
def bm25AvgDL (chunks : List Chunk) : ℚ :=
  ((chunks.map fun c => ((c.content.toList.length : ℚ))).sum) /
    ((chunks.length : Nat) : ℚ)

/-- Model of `bm25Search`.  The `topK` parameter is accepted and ignored,
as in the source.  `log` stands for `Math.log`. -/
def bm25Search (log : ℚ → ℚ) (query : String) (chunks : List Chunk)
    (topK : Nat) : List (String × ℚ) :=
  chunks.foldl
    (fun scores chunk =>
      if bm25ChunkScore log chunks (bm25QueryTerms query) (bm25AvgDL chunks) chunk > 0 then
        jsMapSet scores chunk.id
          (bm25ChunkScore log chunks (bm25QueryTerms query) (bm25AvgDL chunks) chunk)
      else scores)
    []

/-! ### Cosine similarity (storage.ts, cosineSimilarity) -/

/-- Dot product of the two vectors as accumulated by the similarity loop. -/
def dotSum (a b : List ℚ) : ℚ :=
  ((a.zip b).map fun p => p.1 * p.2).sum

/-- Accumulated squared norm (`normA` / `normB` before the square root). -/
def normSum (a : List ℚ) : ℚ :=
  (a.map fun x => x * x).sum

/-- Model of `MemStorage.cosineSimilarity`; `sqrt` stands for `Math.sqrt`. -/
def cosineSimilarity (sqrt : ℚ → ℚ) (a b : List ℚ) : ℚ :=
  if a.length ≠ b.length ∨ a.length = 0 then 0
  else if sqrt (normSum a) * sqrt (normSum b) = 0 then 0
  else dotSum a b / (sqrt (normSum a) * sqrt (normSum b))

/-! ### Query enhancement (rag.ts, enhanceQuery) -/

/-- JSON-like values, modelling what `JSON.parse` can produce from the chat
provider's message content. -/
inductive JsValue where
  | null : JsValue
  | bool (b : Bool) : JsValue
  | num (q : ℚ) : JsValue
  | str (s : String) : JsValue
  | arr (elems : List JsValue) : JsValue
  | obj (fields : List (String × JsValue)) : JsValue
  deriving Repr

/-- JavaScript property access `v.name` for parsed JSON values: objects look
the field up (later duplicate keys from `JSON.parse` win), every other
non-null value yields `undefined` (here `none`). -/
def jsProp : JsValue → String → Option JsValue
  | JsValue.obj fields, name =>
    fields.foldl (fun acc p => if p.1 = name then some p.2 else acc) none
  | _, _ => none

/-- JavaScript truthiness of a parsed JSON value. -/
def jsTruthy : JsValue → Bool
  | JsValue.null => false
  | JsValue.bool b => b
  | JsValue.num q => q ≠ 0
  | JsValue.str s => s ≠ ""
  | JsValue.arr _ => true
  | JsValue.obj _ => true

/-- The expression `result.variations || result.queries || []` from
`enhanceQuery` (`result` is known not to be `null` at this point). -/
def resolveVariations (result : JsValue) : JsValue :=
  match (jsProp result "variations").bind
      (fun v => if jsTruthy v then some v else none) with
  | some v => v
  | none =>
    match (jsProp result "queries").bind
        (fun v => if jsTruthy v then some v else none) with
    | some v => v
    | none => JsValue.arr []

/-- The tail of `enhanceQuery`, `[query, ...variations.slice(0, 2)]`, applied
to the resolved variations value: an array is sliced to its first two
elements; a string is sliced to its first two characters and then spread
character-by-character; any other value has no `slice` method, so the call
throws and the `catch` returns only the original query. -/
def enhanceQueryResolved (query : String) (v : JsValue) : List JsValue :=
  match v with
  | JsValue.arr elems => JsValue.str query :: elems.take 2
  | JsValue.str s =>
    JsValue.str query :: (s.toList.take 2).map fun c => JsValue.str (String.mk [c])
  | _ => [JsValue.str query]

/-- Model of `enhanceQuery` after the provider call: `parsed` is the result
of `JSON.parse` on the message content (`none` when parsing threw).  A `null`
parse result makes the property access throw, which is caught and falls back
to the original query. -/
def enhanceQuery (query : String) (parsed : Option JsValue) : List JsValue :=
  match parsed with
  | none => [JsValue.str query]
  | some JsValue.null => [JsValue.str query]
  | some result => enhanceQueryResolved query (resolveVariations result)

/-! ### Storage (storage.ts, MemStorage) -/

/-- The mutable maps of `MemStorage` that the retrieval claims touch.  The
class only ever stores a document under its own `id` and a chunk under its
own `id`, so the maps are modelled as lists of records in insertion order. -/
structure StorageState where
  documents : List Document
  chunks : List Chunk
  deriving Repr

/-- Model of `MemStorage.deleteDocument`: removes the document and, scanning
the chunk map, every chunk whose `documentId` matches. -/
def deleteDocument (id : String) (s : StorageState) : StorageState :=
  { documents := s.documents.filter fun d => d.id ≠ id
    chunks := s.chunks.filter fun c => c.documentId ≠ id }

/-- Model of `MemStorage.getChunksByDocumentId`. -/
def getChunksByDocumentId (documentId : String) (s : StorageState) : List Chunk :=
  s.chunks.filter fun c => c.documentId = documentId

/-- Model of `MemStorage.getDocument`. -/
def getDocument (id : String) (s : StorageState) : Option Document :=
  s.documents.find? fun d => d.id = id

/-! ### Hybrid retrieval (rag.ts, hybridRetrieval)

The orchestrator's external effects are passed in as data: `log` is
`Math.log`, and `searchResults` is the list of outcomes of
`storage.searchChunksByEmbedding` for the successive query variations
(each a list of `(chunk id, vectorScore)` pairs).  A provider failure that
interrupts the vector-search loop simply makes `searchResults` a prefix of
what full success would have produced, so quantifying over `searchResults`
covers the degraded executions. -/

/-- Model of `allChunks.some((c) => c.embedding && c.embedding.length > 0)`. -/
def hasEmbeddings (chunks : List Chunk) : Bool :=
  chunks.any fun c =>
    match c.embedding with
    | some e => !e.isEmpty
    | none => false

/-- Accumulation of per-variation vector search results into the
`vectorScores` map, keeping for each chunk the maximum similarity seen
(`Math.max(existing, result.vectorScore)` with `existing` defaulting
to 0). -/
def mergedVectorScores (searchResults : List (List (String × ℚ))) :
    List (String × ℚ) :=
  searchResults.foldl
    (fun m results =>
      results.foldl (fun m r => jsMapSet m r.1 (max (mapGetD m r.1 0) r.2)) m)
    []

/-- The `vectorScores` map of `hybridRetrieval`: empty unless some chunk has
a non-empty embedding (the vector-search branch is skipped otherwise). -/
def vectorScoresOf (chunks : List Chunk)
    (searchResults : List (List (String × ℚ))) : List (String × ℚ) :=
  if hasEmbeddings chunks then mergedVectorScores searchResults else []

/-- Value type of the `combinedScores` map. -/
structure ScoreTriple where
  vector : ℚ
  bm25 : ℚ
  combined : ℚ
  deriving DecidableEq, Repr

/-- Normalised scores and their weighted combination for one chunk (the body
of the `combinedScores` loop). -/
def scoreEntryFor (useVectorSearch : Bool)
    (vectorWeight bm25Weight maxVectorScore maxBM25Score : ℚ)
    (vectorScores bm25Scores : List (String × ℚ)) (chunk : Chunk) :
    ScoreTriple :=
  let vectorScore :=
    if useVectorSearch then mapGetD vectorScores chunk.id 0 / maxVectorScore
    else 0
  let bm25Score := mapGetD bm25Scores chunk.id 0 / maxBM25Score
  { vector := vectorScore
    bm25 := bm25Score
    combined := vectorWeight * vectorScore + bm25Weight * bm25Score }

/-- The `combinedScores` map: chunks whose combination is not strictly
positive are left out. -/
def combinedScoresOf (useVectorSearch : Bool)
    (vectorWeight bm25Weight maxVectorScore maxBM25Score : ℚ)
    (vectorScores bm25Scores : List (String × ℚ)) (allChunks : List Chunk) :
    List (String × ScoreTriple) :=
  allChunks.foldl
    (fun m chunk =>
      if (scoreEntryFor useVectorSearch vectorWeight bm25Weight maxVectorScore
            maxBM25Score vectorScores bm25Scores chunk).combined > 0 then
        jsMapSet m chunk.id
          (scoreEntryFor useVectorSearch vectorWeight bm25Weight maxVectorScore
            maxBM25Score vectorScores bm25Scores chunk)
      else m)
    []

/-- Metadata keyword boost: starts at 1.0 and adds 0.1 for every stored
keyword occurring in the lowercased query. -/
def boostFor (query : String) (metadata : ChunkMetadata) : ℚ :=
  let queryLower := toLowerChars query.toList
  metadata.keywords.foldl
    (fun boost keyword =>
      if containsSub keyword.toList queryLower then boost + 1 / 10 else boost)
    1

/-- The `rerankedResults` loop: each surviving map entry is joined back to
its chunk (`allChunks.find`, skipping on a miss like the `continue`), and
the final score is `min(combined * boost, 1.0)`. -/
def rerankCandidates (query : String) (allChunks : List Chunk)
    (combinedScores : List (String × ScoreTriple)) : List RetrievedChunk :=
  combinedScores.filterMap fun entry =>
    match allChunks.find? (fun c => c.id = entry.1) with
    | none => none
    | some chunk =>
      some
        { id := chunk.id
          content := chunk.content
          documentId := chunk.documentId
          metadata := chunk.metadata
          vectorScore := entry.2.vector
          bm25Score := entry.2.bm25
          combinedScore := min (entry.2.combined * boostFor query chunk.metadata) 1 }

/-- Comparator of the final sort, `(a, b) => b.combinedScore -
a.combinedScore`: descending combined score. -/
def scoreGE (a b : RetrievedChunk) : Prop :=
  b.combinedScore ≤ a.combinedScore

instance : DecidableRel scoreGE := fun a b =>
  inferInstanceAs (Decidable (b.combinedScore ≤ a.combinedScore))

instance : IsTotal RetrievedChunk scoreGE :=
  ⟨fun a b => le_total b.combinedScore a.combinedScore⟩

instance : IsTrans RetrievedChunk scoreGE :=
  ⟨fun _ _ _ h1 h2 => le_trans h2 h1⟩

/-- The unsorted candidate list produced by `hybridRetrieval` just before
the final sort-and-truncate. -/
def retrievalCandidates (log : ℚ → ℚ)
    (searchResults : List (List (String × ℚ))) (query : String)
    (allChunks : List Chunk) (topK : Nat) : List RetrievedChunk :=
  let vectorScores := vectorScoresOf allChunks searchResults
  let bm25Scores := bm25Search log query allChunks (topK * 2)
  let maxVectorScore := listMax (1 / 1000) (vectorScores.map fun p => p.2)
  let maxBM25Score := listMax (1 / 1000) (bm25Scores.map fun p => p.2)
  let useVectorSearch := !vectorScores.isEmpty
  let vectorWeight : ℚ := if useVectorSearch then 6 / 10 else 0
  let bm25Weight : ℚ := if useVectorSearch then 4 / 10 else 1
  rerankCandidates query allChunks
    (combinedScoresOf useVectorSearch vectorWeight bm25Weight maxVectorScore
      maxBM25Score vectorScores bm25Scores allChunks)

/-- Model of `hybridRetrieval`.  `Array.prototype.sort` is stable
(ECMAScript 2019), so the sort is modelled by the stable
`List.insertionSort`. -/
def hybridRetrieval (log : ℚ → ℚ)
    (searchResults : List (List (String × ℚ))) (query : String)
    (allChunks : List Chunk) (topK : Nat) : List RetrievedChunk :=
  if allChunks.isEmpty then []
  else
    (List.insertionSort scoreGE
        (retrievalCandidates log searchResults query allChunks topK)).take topK

/-! ### Derived notions used to state the claims -/

/-- Resolved variations values on which the expander degenerates to the
original query alone: an empty list, an empty string, or a value without a
`slice` method. -/
def degenerateResolved : JsValue → Prop
  | JsValue.arr elems => elems = []
  | JsValue.str s => s = ""
  | _ => True

/-- The situations in which `enhanceQuery` falls back to exactly the original
query: the content did not parse, it parsed to `null`, or the resolved
`variations`/`queries` value is degenerate. -/
def expansionDegenerate : Option JsValue → Prop
  | none => True
  | some JsValue.null => True
  | some r => degenerateResolved (resolveVariations r)

/-- Total piece length plus piece count of a sentence split; bounding it by
`content.length + 1` expresses that the split's separators are each at least
one character wide. -/
def sentLenBound (ps : List (List Char)) : Nat :=
  (ps.map List.length).sum + ps.length

/-- Abstract progress measure of the chunker state: the character position
one past the end of the current buffer, plus one when the buffer is
non-empty (accounting for the single space the next append would insert). -/
def chunkPhi (st : ChunkState) : Nat :=
  st.startPosition + st.buffer.length + (if st.buffer.isEmpty then 0 else 1)

/-- Invariant maintained by the sentence loop of `chunkDocument`: every
emitted span ends strictly below the progress measure, consecutive spans
leave no gap, the first span starts at zero, and the running
`startPosition` never passes the last emitted span's end. -/
def chunkInv (st : ChunkState) : Prop :=
  (∀ c ∈ st.out, c.metadata.endPosition + 1 ≤ chunkPhi st) ∧
  List.Chain' (fun a b => b.metadata.startPosition ≤ a.metadata.endPosition) st.out ∧
  (∀ c, st.out.head? = some c → c.metadata.startPosition = 0) ∧
  (match st.out.getLast? with
   | some c => st.startPosition ≤ c.metadata.endPosition
   | none => st.startPosition = 0)

/-! ### Concrete fixtures for witnesses and counterexamples -/

/-- Sign-faithful rational stand-in for `Math.log` in concrete evaluations:
like the natural logarithm it is zero at 1, strictly positive above 1 and
strictly negative on (0, 1), which is all the scoring pipeline can observe
of `Math.log` in the properties below. -/
def demoLog (x : ℚ) : ℚ := x - 1

/-- Metadata fixture. -/
def demoMetadata (keywords : List String) : ChunkMetadata :=
  { documentTitle := "T"
    documentType := "article"
    source := none
    startPosition := 0
    endPosition := 0
    keywords := keywords }

/-- Chunk fixture. -/
def demoChunk (id content : String) (keywords : List String) : Chunk :=
  { id := id
    documentId := "d1"
    content := content
    chunkIndex := 0
    embedding := none
    metadata := demoMetadata keywords }

/-- Expected retrieval result for the one-chunk fixture corpus. -/
def demoRetrieved : RetrievedChunk :=
  { id := "c1"
    content := "abc"
    documentId := "d1"
    metadata := demoMetadata []
    vectorScore := 0
    bm25Score := 1
    combinedScore := 1 }

/-- Corpus for the rerank-boost counterexample: `B` has the best raw BM25
score, `D` the second best, and `C` the worst, but `C` carries five metadata
keywords that occur in the query. -/
def demoCorpusBCD : List Chunk :=
  [demoChunk "B" "abc abc" [],
   demoChunk "C" "abc xxxxxxx" ["a", "b", "c", "ab", "bc"],
   demoChunk "D" "abc xy abc" []]

/-- Document whose two sentences are separated by a double space, so the
chunker's single-space rejoin loses one character of the original
content. -/
def demoGapDoc : Document :=
  { id := "d1"
    title := "T"
    content := "a.  b"
    type := "article"
    source := none
    url := none
    createdAt := 0 }

/-- Document with a single-space sentence separator (no coverage gap). -/
def demoPlainDoc : Document :=
  { id := "d1"
    title := "T"
    content := "a. b"
    type := "article"
    source := none
    url := none
    createdAt := 0 }

/-- The single chunk the chunker produces from `demoPlainDoc`. -/
def demoPlainChunk : NewChunk :=
  { documentId := "d1"
    content := "a. b"
    chunkIndex := 0
    embedding := none
    metadata :=
      { documentTitle := "T"
        documentType := "article"
        source := none
        startPosition := 0
        endPosition := 4
        keywords := [] } }

/-- Storage fixture with two documents and one chunk each. -/
def demoState : StorageState :=
  { documents :=
      [{ id := "d1", title := "A", content := "x.", type := "article",
         source := none, url := none, createdAt := 0 },
       { id := "d2", title := "B", content := "y.", type := "news",
         source := none, url := none, createdAt := 1 }]
    chunks := [demoChunk "c1" "x." [],
               { demoChunk "c2" "y." [] with documentId := "d2" }] }

/-! ### Helper lemmas -/

theorem foldl_preserve {α β : Type} (P : β → Prop) (f : β → α → β)
    (h : ∀ b a, P b → P (f b a)) :
    ∀ (l : List α) (init : β), P init → P (l.foldl f init)
  | [], _, hi => hi
  | a :: l, init, hi => foldl_preserve P f h l (f init a) (h init a hi)

theorem foldl_preserve_mem {α β : Type} (P : β → Prop) (f : β → α → β)
    (L : List α) (h : ∀ b a, a ∈ L → P b → P (f b a)) :
    ∀ (l : List α), (∀ a ∈ l, a ∈ L) → ∀ init, P init → P (l.foldl f init)
  | [], _, _, hi => hi
  | a :: l, hsub, init, hi =>
    foldl_preserve_mem P f L h l
      (fun x hx => hsub x (List.mem_cons_of_mem a hx)) (f init a)
      (h init a (hsub a (List.mem_cons_self a l)) hi)

theorem mem_jsMapSet {β : Type} :
    ∀ {m : List (String × β)} {k : String} {v : β} {p : String × β},
      p ∈ jsMapSet m k v → p ∈ m ∨ p = (k, v)
  | [], _, _, _, hp => by
    simp [jsMapSet] at hp
    exact Or.inr hp
  | (k', v') :: rest, k, v, p, hp => by
    rw [jsMapSet] at hp
    by_cases hk : k' = k
    · rw [if_pos hk] at hp
      rcases List.mem_cons.mp hp with h | h
      · exact Or.inr h
      · exact Or.inl (List.mem_cons_of_mem _ h)
    · rw [if_neg hk] at hp
      rcases List.mem_cons.mp hp with h | h
      · exact Or.inl (h ▸ List.mem_cons_self _ _)
      · rcases mem_jsMapSet h with h' | h'
        · exact Or.inl (List.mem_cons_of_mem _ h')
        · exact Or.inr h'

theorem mapHasKey_jsMapSet_self {β : Type} :
    ∀ (m : List (String × β)) (k : String) (v : β),
      mapHasKey (jsMapSet m k v) k = true
  | [], k, v => by simp [jsMapSet, mapHasKey]
  | (k', v') :: rest, k, v => by
    rw [jsMapSet]
    by_cases hk : k' = k
    · rw [if_pos hk]; simp [mapHasKey]
    · rw [if_neg hk]
      simp only [mapHasKey, List.find?]
      rw [show (decide (k' = k)) = false from decide_eq_false hk]
      exact mapHasKey_jsMapSet_self rest k v

theorem mapHasKey_jsMapSet_mono {β : Type} :
    ∀ {m : List (String × β)} {k : String} (k' : String) (v : β),
      mapHasKey m k = true → mapHasKey (jsMapSet m k' v) k = true
  | [], k, k', v, h => by simp [mapHasKey] at h
  | (k₀, v₀) :: rest, k, k', v, h => by
    rw [jsMapSet]
    by_cases hk : k₀ = k'
    · rw [if_pos hk]
      simp only [mapHasKey, List.find?] at h ⊢
      by_cases hkk : k₀ = k
      · rw [show (decide (k' = k)) = true from decide_eq_true (hk ▸ hkk)]
        simp
      · rw [show (decide (k₀ = k)) = false from decide_eq_false hkk] at h
        by_cases hk'k : k' = k
        · rw [show (decide (k' = k)) = true from decide_eq_true hk'k]; simp
        · rw [show (decide (k' = k)) = false from decide_eq_false hk'k]
          exact h
    · rw [if_neg hk]
      simp only [mapHasKey, List.find?] at h ⊢
      by_cases hkk : k₀ = k
      · rw [show (decide (k₀ = k)) = true from decide_eq_true hkk] at h ⊢
        simp
      · rw [show (decide (k₀ = k)) = false from decide_eq_false hkk] at h ⊢
        exact mapHasKey_jsMapSet_mono k' v h

theorem mapGetD_eq_or {β : Type} [Inhabited β]
    (m : List (String × β)) (k : String) (d : β) :
    mapGetD m k d = d ∨ (k, mapGetD m k d) ∈ m := by
  rw [mapGetD]
  cases hf : m.find? (fun p => p.1 = k) with
  | none => exact Or.inl rfl
  | some p =>
    refine Or.inr ?_
    have hp := List.find?_some hf
    have hk : p.1 = k := of_decide_eq_true hp
    have : (k, p.2) = p := by
      cases p with
      | mk a b => simp only at hk; rw [hk]
    rw [this]
    exact List.mem_of_find?_eq_some hf

theorem foldl_max_init_le : ∀ (l : List ℚ) (i : ℚ), i ≤ l.foldl max i
  | [], _ => le_refl _
  | a :: l, i =>
    le_trans (le_max_left i a) (foldl_max_init_le l (max i a))

theorem le_foldl_max_of_mem :
    ∀ {l : List ℚ} {a : ℚ}, a ∈ l → ∀ (i : ℚ), a ≤ l.foldl max i
  | b :: l, a, ha, i => by
    rcases List.mem_cons.mp ha with h | h
    · subst h
      exact le_trans (le_max_right i a) (foldl_max_init_le l (max i a))
    · exact le_foldl_max_of_mem h (max i b)

theorem listMax_pos {floor : ℚ} (h : 0 < floor) (values : List ℚ) :
    0 < listMax floor values :=
  lt_of_lt_of_le h (foldl_max_init_le values floor)

theorem le_listMax_of_mem {floor a : ℚ} {values : List ℚ} (h : a ∈ values) :
    a ≤ listMax floor values :=
  le_foldl_max_of_mem h floor

theorem find?_filter_of_imp {α : Type} (p q : α → Bool)
    (himp : ∀ x, p x = true → q x = true) :
    ∀ (l : List α), List.find? p (List.filter q l) = List.find? p l
  | [] => rfl
  | x :: l => by
    by_cases hq : q x = true
    · rw [List.filter_cons_of_pos hq, List.find?]
      by_cases hp : p x = true
      · rw [hp, List.find?, hp]
      · rw [Bool.not_eq_true] at hp
        rw [hp, List.find?, hp]
        exact find?_filter_of_imp p q himp l
    · rw [Bool.not_eq_true] at hq
      rw [List.filter_cons_of_neg (by simp [hq]), List.find?]
      have hp : p x = false := by
        by_contra hc
        rw [Bool.not_eq_false] at hc
        rw [himp x hc] at hq
        cases hq
      rw [hp]
      exact find?_filter_of_imp p q himp l

/-! ### Claim C9: empty corpus -/

/-- Claim C9: for every query and topK, if the corpus of chunks is empty
then `hybridRetrieval` returns the empty list; the result does not depend on
the expansion or embedding providers (their outputs `log` and
`searchResults` are universally quantified and unused), so none of the
downstream stages can affect it. -/
theorem claim_C9_empty_corpus (log : ℚ → ℚ)
    (searchResults : List (List (String × ℚ))) (query : String) (topK : Nat) :
    hybridRetrieval log searchResults query [] topK = [] := by
  simp [hybridRetrieval]

/-! ### Claim C7: cosine similarity -/

theorem dotSum_comm : ∀ (a b : List ℚ), dotSum a b = dotSum b a
  | [], b => by cases b <;> simp [dotSum]
  | a :: as, [] => by simp [dotSum]
  | a :: as, b :: bs => by
    simp only [dotSum, List.zip_cons_cons, List.map_cons, List.sum_cons]
    rw [mul_comm]
    have := dotSum_comm as bs
    simp only [dotSum] at this
    rw [this]

/-- Claim C7: `cosineSimilarity` returns exactly 0 when the two vectors have
different lengths or either is empty, and it is symmetric — for every model
`sqrt` of `Math.sqrt`. -/
theorem claim_C7_cosine_zero_and_symm (sqrt : ℚ → ℚ) (a b : List ℚ) :
    ((a = [] ∨ b = [] ∨ a.length ≠ b.length) → cosineSimilarity sqrt a b = 0) ∧
    cosineSimilarity sqrt a b = cosineSimilarity sqrt b a := by
  constructor
  · intro h
    rw [cosineSimilarity, if_pos]
    rcases h with h | h | h
    · exact Or.inr (by simp [h])
    · by_cases ha : a.length = 0
      · exact Or.inr ha
      · refine Or.inl ?_
        rw [h]
        simpa using ha
    · exact Or.inl h
  · by_cases hlen : a.length = b.length
    · by_cases h0 : a.length = 0
      · rw [cosineSimilarity, cosineSimilarity,
          if_pos (Or.inr h0), if_pos (Or.inr (by omega))]
      · have hcondA : ¬(a.length ≠ b.length ∨ a.length = 0) := by
          push_neg
          exact ⟨hlen, h0⟩
        have hcondB : ¬(b.length ≠ a.length ∨ b.length = 0) := by
          push_neg
          refine ⟨hlen.symm, ?_⟩
          omega
        rw [cosineSimilarity, cosineSimilarity, if_neg hcondA, if_neg hcondB,
          dotSum_comm, mul_comm (sqrt (normSum a)) (sqrt (normSum b))]
    · rw [cosineSimilarity, cosineSimilarity,
        if_pos (Or.inl hlen), if_pos (Or.inl (Ne.symm hlen))]

/-- Witness for claim C7 at concrete inputs. -/
theorem claim_C7_witness :
    cosineSimilarity id [1, 2] [] = 0 ∧
    cosineSimilarity id [1, 2] [3] = cosineSimilarity id [3] [1, 2] :=
  ⟨(claim_C7_cosine_zero_and_symm id [1, 2] []).1 (Or.inr (Or.inl rfl)),
   (claim_C7_cosine_zero_and_symm id [1, 2] [3]).2⟩

/-! ### Claim C10: cascading document deletion -/

/-- Claim C10: after `deleteDocument(id)` no chunk with that `documentId`
remains (`getChunksByDocumentId id` is empty), while every document lookup
with a different id and every chunk query for a different document are
unchanged. -/
theorem claim_C10_delete_cascades (s : StorageState) (id : String) :
    getChunksByDocumentId id (deleteDocument id s) = [] ∧
    (∀ other : String, other ≠ id →
      getDocument other (deleteDocument id s) = getDocument other s ∧
      getChunksByDocumentId other (deleteDocument id s) =
        getChunksByDocumentId other s) := by
  constructor
  · rw [getChunksByDocumentId, deleteDocument]
    simp only [List.filter_filter]
    rw [List.eq_nil_iff_forall_not_mem]
    intro c hc
    rw [List.mem_filter] at hc
    have hcond := hc.2
    simp only [Bool.and_eq_true, decide_eq_true_eq] at hcond
    exact hcond.2 hcond.1
  · intro other hother
    constructor
    · rw [getDocument, getDocument, deleteDocument]
      exact find?_filter_of_imp _ _
        (fun d hd => by
          simp only [decide_eq_true_eq] at hd ⊢
          rw [hd]
          exact hother) _
    · rw [getChunksByDocumentId, getChunksByDocumentId, deleteDocument]
      simp only [List.filter_filter]
      apply List.filter_congr
      intro c _
      by_cases h : c.documentId = other
      · simp [h, hother]
      · simp [h]

/-- Witness for claim C10 on the two-document fixture state. -/
theorem claim_C10_witness :
    getChunksByDocumentId "d1" (deleteDocument "d1" demoState) = [] ∧
    getDocument "d2" (deleteDocument "d1" demoState) =
      getDocument "d2" demoState :=
  ⟨(claim_C10_delete_cascades demoState "d1").1,
   ((claim_C10_delete_cascades demoState "d1").2 "d2" (by decide)).1⟩

/-! ### Claim C6: query expansion -/

/-- Claim C6 (amended): the expander's output always starts with the
original query and has at most three elements; and in every degenerate
situation — unparseable content, a `null` parse result, or a resolved
`variations`/`queries` value that is an empty list, an empty string, or a
value without a `slice` method — it returns exactly the original query.
(A non-empty string value escapes the fallback: its first two characters
are spread as variations, which is what the counterexample exhibits.) -/
theorem enhanceQueryResolved_shape (query : String) (v : JsValue) :
    (enhanceQueryResolved query v).head? = some (JsValue.str query) ∧
    (enhanceQueryResolved query v).length ≤ 3 := by
  cases v with
  | arr elems =>
    refine ⟨rfl, ?_⟩
    simp only [enhanceQueryResolved, List.length_cons, List.length_take]
    omega
  | str s =>
    refine ⟨rfl, ?_⟩
    simp only [enhanceQueryResolved, List.length_cons, List.length_map,
      List.length_take]
    omega
  | null => exact ⟨rfl, by simp [enhanceQueryResolved]⟩
  | bool b => exact ⟨rfl, by simp [enhanceQueryResolved]⟩
  | num q => exact ⟨rfl, by simp [enhanceQueryResolved]⟩
  | obj f => exact ⟨rfl, by simp [enhanceQueryResolved]⟩

theorem enhanceQueryResolved_degenerate (query : String) (v : JsValue)
    (h : degenerateResolved v) :
    enhanceQueryResolved query v = [JsValue.str query] := by
  cases v with
  | arr elems =>
    rw [degenerateResolved] at h
    subst h
    rfl
  | str s =>
    rw [degenerateResolved] at h
    subst h
    rfl
  | null => rfl
  | bool b => rfl
  | num q => rfl
  | obj f => rfl

theorem claim_C6_expansion_contract (query : String) (parsed : Option JsValue) :
    ((enhanceQuery query parsed).head? = some (JsValue.str query) ∧
      (enhanceQuery query parsed).length ≤ 3) ∧
    (expansionDegenerate parsed → enhanceQuery query parsed = [JsValue.str query]) := by
  cases parsed with
  | none => exact ⟨⟨rfl, by simp [enhanceQuery]⟩, fun _ => rfl⟩
  | some r =>
    cases r with
    | null => exact ⟨⟨rfl, by simp [enhanceQuery]⟩, fun _ => rfl⟩
    | bool b =>
      exact ⟨enhanceQueryResolved_shape query (resolveVariations (JsValue.bool b)),
        fun h => enhanceQueryResolved_degenerate query (resolveVariations (JsValue.bool b)) h⟩
    | num q =>
      exact ⟨enhanceQueryResolved_shape query (resolveVariations (JsValue.num q)),
        fun h => enhanceQueryResolved_degenerate query (resolveVariations (JsValue.num q)) h⟩
    | str s =>
      exact ⟨enhanceQueryResolved_shape query (resolveVariations (JsValue.str s)),
        fun h => enhanceQueryResolved_degenerate query (resolveVariations (JsValue.str s)) h⟩
    | arr elems =>
      exact ⟨enhanceQueryResolved_shape query (resolveVariations (JsValue.arr elems)),
        fun h => enhanceQueryResolved_degenerate query (resolveVariations (JsValue.arr elems)) h⟩
    | obj fields =>
      exact ⟨enhanceQueryResolved_shape query (resolveVariations (JsValue.obj fields)),
        fun h => enhanceQueryResolved_degenerate query (resolveVariations (JsValue.obj fields)) h⟩

/-- Counterexample to claim C6 as stated: a parsed response object whose
`variations` field is the (malformed, non-list) string "hi" does not fall
back to the original query — the string is sliced and spread, producing the
three-element output `[query, "h", "i"]`. -/
theorem claim_C6_counterexample :
    (enhanceQuery "q" (some (JsValue.obj [("variations", JsValue.str "hi")]))).length = 3 ∧
    (enhanceQuery "q" (some (JsValue.obj [("variations", JsValue.str "hi")]))).head? =
      some (JsValue.str "q") := by
  constructor <;> rfl

/-- Witness for claim C6: a parse failure and an empty parsed object both
fall back to exactly the original query. -/
theorem claim_C6_witness :
    enhanceQuery "q" none = [JsValue.str "q"] ∧
    enhanceQuery "q" (some (JsValue.obj [])) = [JsValue.str "q"] :=
  ⟨(claim_C6_expansion_contract "q" none).2 trivial,
   (claim_C6_expansion_contract "q" (some (JsValue.obj []))).2 rfl⟩

/-! ### Score-map invariants for the fusion stage -/

theorem mergedVectorScores_nonneg (searchResults : List (List (String × ℚ))) :
    ∀ p ∈ mergedVectorScores searchResults, 0 ≤ p.2 := by
  rw [mergedVectorScores]
  refine foldl_preserve (fun m : List (String × ℚ) => ∀ p ∈ m, 0 ≤ p.2) _ ?_ searchResults [] ?_
  · intro m results hm
    refine foldl_preserve (fun m : List (String × ℚ) => ∀ p ∈ m, 0 ≤ p.2) _ ?_ results m hm
    intro m' r hm' p hp
    rcases mem_jsMapSet hp with h | h
    · exact hm' p h
    · subst h
      have hA : 0 ≤ mapGetD m' r.1 0 := by
        rcases mapGetD_eq_or m' r.1 0 with h0 | hmem
        · rw [h0]
        · exact hm' _ hmem
      exact le_trans hA (le_max_left _ _)
  · intro p hp
    simp at hp

theorem vectorScoresOf_nonneg (chunks : List Chunk)
    (searchResults : List (List (String × ℚ))) :
    ∀ p ∈ vectorScoresOf chunks searchResults, 0 ≤ p.2 := by
  rw [vectorScoresOf]
  split_ifs with h
  · exact mergedVectorScores_nonneg searchResults
  · intro p hp
    simp at hp

theorem mem_bm25Search {log : ℚ → ℚ} {query : String} {chunks : List Chunk}
    {topK : Nat} {p : String × ℚ} (hp : p ∈ bm25Search log query chunks topK) :
    ∃ c ∈ chunks,
      p = (c.id, bm25ChunkScore log chunks (bm25QueryTerms query) (bm25AvgDL chunks) c) ∧
      0 < bm25ChunkScore log chunks (bm25QueryTerms query) (bm25AvgDL chunks) c := by
  rw [bm25Search] at hp
  refine foldl_preserve_mem
    (fun m => ∀ q ∈ m, ∃ c ∈ chunks,
      q = (c.id, bm25ChunkScore log chunks (bm25QueryTerms query) (bm25AvgDL chunks) c) ∧
      0 < bm25ChunkScore log chunks (bm25QueryTerms query) (bm25AvgDL chunks) c)
    _ chunks ?_ chunks (fun a ha => ha) [] ?_ p hp
  · intro m c hc hm q hq
    by_cases hs :
      bm25ChunkScore log chunks (bm25QueryTerms query) (bm25AvgDL chunks) c > 0
    · rw [if_pos hs] at hq
      rcases mem_jsMapSet hq with h | h
      · exact hm q h
      · exact ⟨c, hc, h, hs⟩
    · rw [if_neg hs] at hq
      exact hm q hq
  · intro q hq
    simp at hq

theorem bm25_fold_hasKey (log : ℚ → ℚ) (chunks : List Chunk)
    (terms : List (List Char)) (avg : ℚ) (key : String) :
    ∀ (l : List Chunk) (init : List (String × ℚ)),
      ((∃ c ∈ l, c.id = key ∧ 0 < bm25ChunkScore log chunks terms avg c) ∨
        mapHasKey init key = true) →
      mapHasKey
        (l.foldl
          (fun scores chunk =>
            if bm25ChunkScore log chunks terms avg chunk > 0 then
              jsMapSet scores chunk.id (bm25ChunkScore log chunks terms avg chunk)
            else scores)
          init) key = true
  | [], init, h => by
    rcases h with ⟨c, hc, _⟩ | h
    · simp at hc
    · exact h
  | x :: l, init, h => by
    rw [List.foldl_cons]
    refine bm25_fold_hasKey log chunks terms avg key l _ ?_
    rcases h with ⟨c, hc, hcid, hcpos⟩ | hinit
    · rcases List.mem_cons.mp hc with hcx | hcl
      · subst hcx
        refine Or.inr ?_
        rw [if_pos hcpos]
        exact hcid ▸ mapHasKey_jsMapSet_self _ _ _
      · exact Or.inl ⟨c, hcl, hcid, hcpos⟩
    · refine Or.inr ?_
      by_cases hs : bm25ChunkScore log chunks terms avg x > 0
      · rw [if_pos hs]
        exact mapHasKey_jsMapSet_mono _ _ hinit
      · rw [if_neg hs]
        exact hinit

theorem bm25Search_hasKey_of_pos {log : ℚ → ℚ} {query : String}
    {chunks : List Chunk} {topK : Nat} {c : Chunk} (hc : c ∈ chunks)
    (hpos : 0 < bm25ChunkScore log chunks (bm25QueryTerms query) (bm25AvgDL chunks) c) :
    mapHasKey (bm25Search log query chunks topK) c.id = true := by
  rw [bm25Search]
  exact bm25_fold_hasKey log chunks (bm25QueryTerms query) (bm25AvgDL chunks)
    c.id chunks [] (Or.inl ⟨c, hc, rfl, hpos⟩)

theorem scoreEntryFor_bounds (useV : Bool) (vW bW maxV maxB : ℚ)
    (vecS bmS : List (String × ℚ)) (chunk : Chunk)
    (hmaxV : 0 < maxV) (hmaxB : 0 < maxB)
    (hvec : ∀ p ∈ vecS, 0 ≤ p.2 ∧ p.2 ≤ maxV)
    (hbm : ∀ p ∈ bmS, 0 ≤ p.2 ∧ p.2 ≤ maxB)
    (hvW : 0 ≤ vW) (hbW : 0 ≤ bW) (hsum : vW + bW = 1) :
    (0 ≤ (scoreEntryFor useV vW bW maxV maxB vecS bmS chunk).vector ∧
      (scoreEntryFor useV vW bW maxV maxB vecS bmS chunk).vector ≤ 1) ∧
    (0 ≤ (scoreEntryFor useV vW bW maxV maxB vecS bmS chunk).bm25 ∧
      (scoreEntryFor useV vW bW maxV maxB vecS bmS chunk).bm25 ≤ 1) ∧
    (0 ≤ (scoreEntryFor useV vW bW maxV maxB vecS bmS chunk).combined ∧
      (scoreEntryFor useV vW bW maxV maxB vecS bmS chunk).combined ≤ 1) := by
  have hvx : 0 ≤ mapGetD vecS chunk.id 0 ∧ mapGetD vecS chunk.id 0 ≤ maxV := by
    rcases mapGetD_eq_or vecS chunk.id 0 with h0 | hmem
    · rw [h0]
      exact ⟨le_refl 0, le_of_lt hmaxV⟩
    · exact hvec _ hmem
  have hbx : 0 ≤ mapGetD bmS chunk.id 0 ∧ mapGetD bmS chunk.id 0 ≤ maxB := by
    rcases mapGetD_eq_or bmS chunk.id 0 with h0 | hmem
    · rw [h0]
      exact ⟨le_refl 0, le_of_lt hmaxB⟩
    · exact hbm _ hmem
  have hv : 0 ≤ (scoreEntryFor useV vW bW maxV maxB vecS bmS chunk).vector ∧
      (scoreEntryFor useV vW bW maxV maxB vecS bmS chunk).vector ≤ 1 := by
    rw [scoreEntryFor]
    simp only
    split_ifs with hu
    · exact ⟨div_nonneg hvx.1 (le_of_lt hmaxV), (div_le_one hmaxV).mpr hvx.2⟩
    · exact ⟨le_refl 0, zero_le_one⟩
  have hb : 0 ≤ (scoreEntryFor useV vW bW maxV maxB vecS bmS chunk).bm25 ∧
      (scoreEntryFor useV vW bW maxV maxB vecS bmS chunk).bm25 ≤ 1 := by
    rw [scoreEntryFor]
    exact ⟨div_nonneg hbx.1 (le_of_lt hmaxB), (div_le_one hmaxB).mpr hbx.2⟩
  refine ⟨hv, hb, ?_, ?_⟩
  · rw [scoreEntryFor] at hv hb ⊢
    exact add_nonneg (mul_nonneg hvW hv.1) (mul_nonneg hbW hb.1)
  · rw [scoreEntryFor] at hv hb ⊢
    calc vW * (scoreEntryFor useV vW bW maxV maxB vecS bmS chunk).vector +
          bW * (scoreEntryFor useV vW bW maxV maxB vecS bmS chunk).bm25 ≤
        vW * 1 + bW * 1 := by
          rw [scoreEntryFor]
          exact add_le_add (mul_le_mul_of_nonneg_left hv.2 hvW)
            (mul_le_mul_of_nonneg_left hb.2 hbW)
      _ = 1 := by rw [mul_one, mul_one, hsum]

theorem mem_combinedScoresOf {useV : Bool} {vW bW maxV maxB : ℚ}
    {vecS bmS : List (String × ℚ)} {allChunks : List Chunk}
    {p : String × ScoreTriple}
    (hp : p ∈ combinedScoresOf useV vW bW maxV maxB vecS bmS allChunks) :
    ∃ c ∈ allChunks,
      p = (c.id, scoreEntryFor useV vW bW maxV maxB vecS bmS c) ∧
      0 < (scoreEntryFor useV vW bW maxV maxB vecS bmS c).combined := by
  rw [combinedScoresOf] at hp
  refine foldl_preserve_mem
    (fun m => ∀ q ∈ m, ∃ c ∈ allChunks,
      q = (c.id, scoreEntryFor useV vW bW maxV maxB vecS bmS c) ∧
      0 < (scoreEntryFor useV vW bW maxV maxB vecS bmS c).combined)
    _ allChunks ?_ allChunks (fun a ha => ha) [] ?_ p hp
  · intro m c hc hm q hq
    by_cases hs : (scoreEntryFor useV vW bW maxV maxB vecS bmS c).combined > 0
    · rw [if_pos hs] at hq
      rcases mem_jsMapSet hq with h | h
      · exact hm q h
      · exact ⟨c, hc, h, hs⟩
    · rw [if_neg hs] at hq
      exact hm q hq
  · intro q hq
    simp at hq

theorem boostFor_one_le (query : String) (metadata : ChunkMetadata) :
    1 ≤ boostFor query metadata := by
  rw [boostFor]
  refine foldl_preserve (fun b => 1 ≤ b) _ ?_ metadata.keywords 1 (le_refl 1)
  intro b kw hb
  split_ifs
  · calc (1 : ℚ) ≤ b := hb
      _ ≤ b + 1 / 10 := by linarith
  · exact hb

theorem mem_rerankCandidates {query : String} {allChunks : List Chunk}
    {cs : List (String × ScoreTriple)} {r : RetrievedChunk}
    (hr : r ∈ rerankCandidates query allChunks cs) :
    ∃ p ∈ cs, ∃ chunk, chunk ∈ allChunks ∧ chunk.id = p.1 ∧
      r = { id := chunk.id
            content := chunk.content
            documentId := chunk.documentId
            metadata := chunk.metadata
            vectorScore := p.2.vector
            bm25Score := p.2.bm25
            combinedScore := min (p.2.combined * boostFor query chunk.metadata) 1 } := by
  rw [rerankCandidates] at hr
  rcases List.mem_filterMap.mp hr with ⟨entry, hentry, heq⟩
  cases hf : allChunks.find? (fun c => c.id = entry.1) with
  | none =>
    rw [hf] at heq
    simp at heq
  | some chunk =>
    rw [hf] at heq
    simp only [Option.some.injEq] at heq
    have hpred := List.find?_some hf
    simp only [decide_eq_true_eq] at hpred
    exact ⟨entry, hentry, chunk, List.mem_of_find?_eq_some hf, hpred, heq.symm⟩

theorem mem_retrievalCandidates_bounds {log : ℚ → ℚ}
    {searchResults : List (List (String × ℚ))} {query : String}
    {allChunks : List Chunk} {topK : Nat} {r : RetrievedChunk}
    (hr : r ∈ retrievalCandidates log searchResults query allChunks topK) :
    (0 ≤ r.vectorScore ∧ r.vectorScore ≤ 1) ∧
    (0 ≤ r.bm25Score ∧ r.bm25Score ≤ 1) ∧
    (0 ≤ r.combinedScore ∧ r.combinedScore ≤ 1) := by
  rw [retrievalCandidates] at hr
  obtain ⟨p, hp, chunk, hcmem, hcid, hreq⟩ := mem_rerankCandidates hr
  obtain ⟨c, hc, hpe, hpos⟩ := mem_combinedScoresOf hp
  have hmaxV : (0 : ℚ) <
      listMax (1 / 1000) ((vectorScoresOf allChunks searchResults).map fun p => p.2) :=
    listMax_pos (by norm_num) _
  have hmaxB : (0 : ℚ) <
      listMax (1 / 1000) ((bm25Search log query allChunks (topK * 2)).map fun p => p.2) :=
    listMax_pos (by norm_num) _
  have hvec : ∀ q ∈ vectorScoresOf allChunks searchResults, 0 ≤ q.2 ∧
      q.2 ≤ listMax (1 / 1000) ((vectorScoresOf allChunks searchResults).map fun p => p.2) :=
    fun q hq => ⟨vectorScoresOf_nonneg allChunks searchResults q hq,
      le_listMax_of_mem (List.mem_map_of_mem _ hq)⟩
  have hbm : ∀ q ∈ bm25Search log query allChunks (topK * 2), 0 ≤ q.2 ∧
      q.2 ≤ listMax (1 / 1000) ((bm25Search log query allChunks (topK * 2)).map fun p => p.2) := by
    intro q hq
    obtain ⟨c', _, hqe, hpos'⟩ := mem_bm25Search hq
    refine ⟨?_, le_listMax_of_mem (List.mem_map_of_mem _ hq)⟩
    rw [hqe]
    exact le_of_lt hpos'
  have hweights :
      (0 : ℚ) ≤ (if !(vectorScoresOf allChunks searchResults).isEmpty then 6 / 10 else 0) ∧
      (0 : ℚ) ≤ (if !(vectorScoresOf allChunks searchResults).isEmpty then 4 / 10 else 1) ∧
      (if !(vectorScoresOf allChunks searchResults).isEmpty then (6 : ℚ) / 10 else 0) +
        (if !(vectorScoresOf allChunks searchResults).isEmpty then (4 : ℚ) / 10 else 1) = 1 := by
    split_ifs <;> norm_num
  have hbounds := scoreEntryFor_bounds
    (!(vectorScoresOf allChunks searchResults).isEmpty)
    (if !(vectorScoresOf allChunks searchResults).isEmpty then 6 / 10 else 0)
    (if !(vectorScoresOf allChunks searchResults).isEmpty then 4 / 10 else 1)
    (listMax (1 / 1000) ((vectorScoresOf allChunks searchResults).map fun p => p.2))
    (listMax (1 / 1000) ((bm25Search log query allChunks (topK * 2)).map fun p => p.2))
    (vectorScoresOf allChunks searchResults)
    (bm25Search log query allChunks (topK * 2)) c
    hmaxV hmaxB hvec hbm hweights.1 hweights.2.1 hweights.2.2
  rw [hreq]
  rw [hpe]
  simp only
  refine ⟨hbounds.1, hbounds.2.1, ?_, min_le_right _ _⟩
  refine le_min ?_ zero_le_one
  have hb0 : (0 : ℚ) ≤ boostFor query chunk.metadata :=
    le_trans zero_le_one (boostFor_one_le query chunk.metadata)
  exact mul_nonneg hbounds.2.2.1 hb0

theorem mem_hybridRetrieval {log : ℚ → ℚ}
    {searchResults : List (List (String × ℚ))} {query : String}
    {allChunks : List Chunk} {topK : Nat} {r : RetrievedChunk}
    (hr : r ∈ hybridRetrieval log searchResults query allChunks topK) :
    r ∈ retrievalCandidates log searchResults query allChunks topK := by
  rw [hybridRetrieval] at hr
  split_ifs at hr
  · simp at hr
  · exact (List.mem_insertionSort scoreGE).mp (List.take_subset _ _ hr)

/-! ### Claim C1: combined score bounds -/

/-- Claim C1: every `RetrievedChunk` returned by `hybridRetrieval` has
`combinedScore` in `[0, 1]` — the keyword boost may accumulate without
bound, but the final score `min(combined * boost, 1.0)` is capped at 1 and
never negative.  Universally quantified over the `Math.log` interpretation
and the embedding-search outcomes. -/
theorem claim_C1_combinedScore_unit (log : ℚ → ℚ)
    (searchResults : List (List (String × ℚ))) (query : String)
    (allChunks : List Chunk) (topK : Nat) (r : RetrievedChunk)
    (hr : r ∈ hybridRetrieval log searchResults query allChunks topK) :
    0 ≤ r.combinedScore ∧ r.combinedScore ≤ 1 :=
  (mem_retrievalCandidates_bounds (mem_hybridRetrieval hr)).2.2

/-- Witness for claim C1 on a concrete one-chunk corpus. -/
theorem claim_C1_witness :
    0 ≤ demoRetrieved.combinedScore ∧ demoRetrieved.combinedScore ≤ 1 :=
  claim_C1_combinedScore_unit demoLog [] "abc" [demoChunk "c1" "abc" []] 5
    demoRetrieved (by with_unfolding_all decide)

/-! ### Claim C3: component score bounds -/

/-- Claim C3: every `RetrievedChunk` returned by `hybridRetrieval` has
`vectorScore` in `[0, 1]` and `bm25Score` in `[0, 1]`, both after
normalisation by the respective map maximum. -/
theorem claim_C3_component_scores_unit (log : ℚ → ℚ)
    (searchResults : List (List (String × ℚ))) (query : String)
    (allChunks : List Chunk) (topK : Nat) (r : RetrievedChunk)
    (hr : r ∈ hybridRetrieval log searchResults query allChunks topK) :
    (0 ≤ r.vectorScore ∧ r.vectorScore ≤ 1) ∧
    (0 ≤ r.bm25Score ∧ r.bm25Score ≤ 1) :=
  ⟨(mem_retrievalCandidates_bounds (mem_hybridRetrieval hr)).1,
   (mem_retrievalCandidates_bounds (mem_hybridRetrieval hr)).2.1⟩

/-- Witness for claim C3 on a concrete one-chunk corpus. -/
theorem claim_C3_witness :
    (0 ≤ demoRetrieved.vectorScore ∧ demoRetrieved.vectorScore ≤ 1) ∧
    (0 ≤ demoRetrieved.bm25Score ∧ demoRetrieved.bm25Score ≤ 1) :=
  claim_C3_component_scores_unit demoLog [] "abc" [demoChunk "c1" "abc" []] 5
    demoRetrieved (by with_unfolding_all decide)

/-! ### Claim C4: top-K truncation, ordering and stability -/

/-- Claim C4: `hybridRetrieval` returns at most `topK` results, sorted by
descending `combinedScore` (the comparator `scoreGE`); and the sort is
stable over the candidate list — every sublist of the candidates that is
already sorted survives as a sublist of the sorted result, so ties keep
their original candidate iteration order. -/
theorem claim_C4_topk_sorted_stable (log : ℚ → ℚ)
    (searchResults : List (List (String × ℚ))) (query : String)
    (allChunks : List Chunk) (topK : Nat) :
    (hybridRetrieval log searchResults query allChunks topK).length ≤ topK ∧
    List.Sorted scoreGE (hybridRetrieval log searchResults query allChunks topK) ∧
    (∀ c : List RetrievedChunk, c.Pairwise scoreGE →
      c.Sublist (retrievalCandidates log searchResults query allChunks topK) →
      c.Sublist (List.insertionSort scoreGE
        (retrievalCandidates log searchResults query allChunks topK))) := by
  refine ⟨?_, ?_, fun c hc hsub => List.sublist_insertionSort hc hsub⟩
  · rw [hybridRetrieval]
    split_ifs
    · simp
    · rw [List.length_take]
      exact min_le_left _ _
  · rw [hybridRetrieval]
    split_ifs
    · exact List.sorted_nil
    · exact List.Pairwise.sublist (List.take_sublist _ _)
        (List.sorted_insertionSort scoreGE _)

/-- Witness for claim C4 on a concrete one-chunk corpus (the stability part
is instantiated at the empty sorted sublist). -/
theorem claim_C4_witness :
    (hybridRetrieval demoLog [] "abc" [demoChunk "c1" "abc" []] 5).length ≤ 5 ∧
    List.Sublist [] (List.insertionSort scoreGE
      (retrievalCandidates demoLog [] "abc" [demoChunk "c1" "abc" []] 5)) :=
  ⟨(claim_C4_topk_sorted_stable demoLog [] "abc" [demoChunk "c1" "abc" []] 5).1,
   (claim_C4_topk_sorted_stable demoLog [] "abc" [demoChunk "c1" "abc" []] 5).2.2
     [] List.Pairwise.nil (List.nil_sublist _)⟩

/-! ### Claim C5: no-embedding fallback -/

/-- Claim C5 (amended): when no chunk has a non-empty embedding, every
returned `RetrievedChunk` has `vectorScore = 0` and the fusion weights are
`bm25Weight = 1.0`, `vectorWeight = 0`, so each candidate's combined score
before boosting equals its normalised `bm25Score`; the final score — and
hence the ranking — is `min(bm25Score * boost, 1.0)` where `boost` is the
metadata keyword boost, which can reorder results away from pure
`bm25Score` order. -/
theorem claim_C5_no_embeddings_bm25_only (log : ℚ → ℚ)
    (searchResults : List (List (String × ℚ))) (query : String)
    (chunks : List Chunk) (topK : Nat) (h : hasEmbeddings chunks = false) :
    ∀ r ∈ hybridRetrieval log searchResults query chunks topK,
      r.vectorScore = 0 ∧
      r.combinedScore = min (r.bm25Score * boostFor query r.metadata) 1 := by
  intro r hr
  have hr' := mem_hybridRetrieval hr
  rw [retrievalCandidates] at hr'
  have hvs : vectorScoresOf chunks searchResults = [] := by
    rw [vectorScoresOf, h]
    simp
  rw [hvs] at hr'
  simp only [List.isEmpty_nil, Bool.not_true, Bool.false_eq_true, if_false] at hr'
  obtain ⟨p, hp, chunk, hcmem, hcid, hreq⟩ := mem_rerankCandidates hr'
  obtain ⟨c, hc, hpe, hpos⟩ := mem_combinedScoresOf hp
  rw [hreq, hpe]
  simp only [scoreEntryFor]
  constructor
  · simp
  · simp [zero_mul, one_mul, zero_add]

/-- Counterexample to claim C5 as stated: on a three-chunk corpus with no
embeddings, the metadata keyword boost reorders the output, so the returned
sequence is not ordered by `bm25Score` — the ranking is not determined
purely by the normalised BM25 score. -/
theorem claim_C5_counterexample :
    hasEmbeddings demoCorpusBCD = false ∧
    ¬ ((hybridRetrieval demoLog [] "abc" demoCorpusBCD 5).map
        (fun r => r.bm25Score)).Pairwise (fun a b => b ≤ a) := by
  with_unfolding_all decide

/-- Witness for claim C5 (amended) on a concrete embedding-free corpus. -/
theorem claim_C5_witness :
    demoRetrieved.vectorScore = 0 ∧
    demoRetrieved.combinedScore =
      min (demoRetrieved.bm25Score * boostFor "abc" demoRetrieved.metadata) 1 :=
  claim_C5_no_embeddings_bm25_only demoLog [] "abc" [demoChunk "c1" "abc" []] 5
    (by with_unfolding_all decide) demoRetrieved (by with_unfolding_all decide)

/-! ### Claim C8: BM25 key membership -/

theorem bm25ChunkScore_eq_zero {log : ℚ → ℚ} {chunks : List Chunk}
    {terms : List (List Char)} {avg : ℚ} {c : Chunk}
    (h : ∀ t ∈ terms, countMatches t (toLowerChars c.content.toList) = 0) :
    bm25ChunkScore log chunks terms avg c = 0 := by
  rw [bm25ChunkScore]
  apply List.sum_eq_zero
  intro x hx
  rcases List.mem_map.mp hx with ⟨t, ht, rfl⟩
  rw [h t ht]
  simp

/-- Claim C8 (amended): the BM25 score map has a key `cid` exactly when some
corpus chunk with that id has a strictly positive summed term contribution;
in particular, a chunk id all of whose chunks have zero regex matches for
every (length > 2) query term — terms are applied as regular expressions,
with `.` matching any character, not as literal substrings — is never a key
in the result map. -/
theorem claim_C8_bm25_keys (log : ℚ → ℚ) (query : String)
    (chunks : List Chunk) (topK : Nat) :
    (∀ cid : String,
      mapHasKey (bm25Search log query chunks topK) cid = true ↔
      ∃ c ∈ chunks, c.id = cid ∧
        0 < bm25ChunkScore log chunks (bm25QueryTerms query) (bm25AvgDL chunks) c) ∧
    (∀ cid : String,
      (∀ c ∈ chunks, c.id = cid →
        ∀ t ∈ bm25QueryTerms query,
          countMatches t (toLowerChars c.content.toList) = 0) →
      mapHasKey (bm25Search log query chunks topK) cid = false) := by
  have hiff : ∀ cid : String,
      mapHasKey (bm25Search log query chunks topK) cid = true ↔
      ∃ c ∈ chunks, c.id = cid ∧
        0 < bm25ChunkScore log chunks (bm25QueryTerms query) (bm25AvgDL chunks) c := by
    intro cid
    constructor
    · intro h
      rw [mapHasKey] at h
      rcases Option.isSome_iff_exists.mp h with ⟨p, hp⟩
      have hmem := List.mem_of_find?_eq_some hp
      have hpred := List.find?_some hp
      simp only [decide_eq_true_eq] at hpred
      obtain ⟨c, hc, hpe, hpos⟩ := mem_bm25Search hmem
      refine ⟨c, hc, ?_, hpos⟩
      rw [← hpred, hpe]
    · rintro ⟨c, hc, rfl, hpos⟩
      exact bm25Search_hasKey_of_pos hc hpos
  refine ⟨hiff, ?_⟩
  intro cid hz
  cases hx : mapHasKey (bm25Search log query chunks topK) cid with
  | false => rfl
  | true =>
    obtain ⟨c, hc, hcid, hpos⟩ := (hiff cid).mp hx
    have hzero := @bm25ChunkScore_eq_zero log chunks (bm25QueryTerms query)
      (bm25AvgDL chunks) c (hz c hc hcid)
    rw [hzero] at hpos
    exact absurd hpos (lt_irrefl 0)

/-- Counterexample to claim C8 as stated: with query term "a.c" (which
contains a regex metacharacter) and a chunk whose content is "abc", the
chunk is scored and becomes a key of the BM25 map, although its content
does not contain the query term as a literal substring. -/
theorem claim_C8_counterexample :
    mapHasKey (bm25Search demoLog "a.c" [demoChunk "c1" "abc" []] 10) "c1" = true ∧
    containsSub "a.c".toList (toLowerChars "abc".toList) = false := by
  with_unfolding_all decide

/-- Witness for claim C8 (amended): a chunk whose content matches no query
term is not a key of the BM25 map. -/
theorem claim_C8_witness :
    mapHasKey (bm25Search demoLog "abc" [demoChunk "c1" "xyz" []] 10) "c1" = false :=
  (claim_C8_bm25_keys demoLog "abc" [demoChunk "c1" "xyz" []] 10).2 "c1"
    (by with_unfolding_all decide)

/-! ### Claim C2: chunk span coverage -/

theorem splitSentencesGo_bound :
    ∀ (rest accRev : List Char) (inSep : Bool),
      sentLenBound (splitSentencesGo rest accRev inSep) ≤
        accRev.length + rest.length + 1 + inSep.toNat
  | [], accRev, inSep => by
    rw [splitSentencesGo]
    cases inSep <;> simp [sentLenBound]
  | c :: rest, accRev, inSep => by
    rw [splitSentencesGo]
    cases inSep with
    | true =>
      simp only [if_true]
      by_cases hws : isWsChar c = true
      · rw [if_pos hws]
        have ih := splitSentencesGo_bound rest accRev true
        simp only [Bool.toNat_true, Bool.toNat_false, List.length_cons,
          List.length_nil] at ih ⊢
        omega
      · rw [if_neg hws]
        have ih := splitSentencesGo_bound rest [c] false
        simp only [Bool.toNat_true, Bool.toNat_false, List.length_cons,
          List.length_nil, sentLenBound, List.map_cons, List.sum_cons,
          List.length_reverse] at ih ⊢
        omega
    | false =>
      simp only [Bool.false_eq_true, if_false]
      by_cases hcond : isWsChar c = true ∧ headIsSentEnd accRev = true
      · rw [if_pos hcond]
        have ih := splitSentencesGo_bound rest accRev true
        simp only [Bool.toNat_true, Bool.toNat_false, List.length_cons,
          List.length_nil] at ih ⊢
        omega
      · rw [if_neg hcond]
        have ih := splitSentencesGo_bound rest (c :: accRev) false
        simp only [Bool.toNat_false, List.length_cons, List.length_nil] at ih ⊢
        omega

theorem splitSentences_bound (cs : List Char) :
    sentLenBound (splitSentences cs) ≤ cs.length + 1 := by
  have h := splitSentencesGo_bound cs [] false
  simpa using h

theorem chunkPhi_of_ne_nil {st : ChunkState} (h : st.buffer ≠ []) :
    chunkPhi st = st.startPosition + st.buffer.length + 1 := by
  rw [chunkPhi]
  cases hb : st.buffer with
  | nil => exact absurd hb h
  | cons x xs => simp

theorem chunkStep_props (doc : Document) (st : ChunkState) (s : List Char)
    (h : chunkInv st) :
    chunkInv (chunkStep doc st s) ∧
    chunkPhi st ≤ chunkPhi (chunkStep doc st s) ∧
    chunkPhi (chunkStep doc st s) ≤ chunkPhi st + (1 + s.length) := by
  obtain ⟨buf, idx, start, out⟩ := st
  obtain ⟨hEnds, hChain, hHead, hLast⟩ := h
  simp only at hEnds hChain hHead hLast
  simp only [chunkStep]
  by_cases hcl : buf.length + s.length > CHUNK_SIZE ∧ buf.length > 0
  · -- close the current chunk and seed the next buffer with the overlap
    rw [if_pos hcl]
    obtain ⟨hsize, hpos⟩ := hcl
    have hbne : buf.isEmpty = false :=
      List.isEmpty_eq_false.mpr (List.length_pos.mp hpos)
    have hbNew_ne :
        (buf.drop (buf.length - CHUNK_OVERLAP) ++ s).isEmpty = false := by
      rw [List.isEmpty_eq_false]
      intro hnil
      have hlen0 := congrArg List.length hnil
      rw [List.length_append, List.length_drop, List.length_nil] at hlen0
      have hco : CHUNK_OVERLAP = 100 := rfl
      omega
    have hPhiOld : chunkPhi ⟨buf, idx, start, out⟩ =
        start + buf.length + (if buf.isEmpty then 0 else 1) := rfl
    have hifold : (if buf.isEmpty then (0 : Nat) else 1) = 1 := by
      rw [hbne]
      simp
    have hPhiNew : chunkPhi
        ⟨buf.drop (buf.length - CHUNK_OVERLAP) ++ s, idx + 1,
          start + (buf.length - CHUNK_OVERLAP),
          out ++ [⟨doc.id, String.mk (trimChars buf), idx, none,
            chunkMetadataFor doc start buf⟩]⟩ =
        start + (buf.length - CHUNK_OVERLAP) +
          ((buf.drop (buf.length - CHUNK_OVERLAP) ++ s).length) +
          (if (buf.drop (buf.length - CHUNK_OVERLAP) ++ s).isEmpty then 0 else 1) := rfl
    have hifnew :
        (if (buf.drop (buf.length - CHUNK_OVERLAP) ++ s).isEmpty then (0 : Nat) else 1) = 1 := by
      rw [hbNew_ne]
      simp
    have hlenNew : (buf.drop (buf.length - CHUNK_OVERLAP) ++ s).length =
        (buf.length - (buf.length - CHUNK_OVERLAP)) + s.length := by
      rw [List.length_append, List.length_drop]
    refine ⟨⟨?_, ?_, ?_, ?_⟩, ?_, ?_⟩
    · -- every emitted end stays below the progress measure
      intro c hc
      rcases List.mem_append.mp hc with hcold | hcnew
      · have hE := hEnds c hcold
        rw [hPhiOld, hifold] at hE
        rw [hPhiNew, hifnew, hlenNew]
        omega
      · rw [List.mem_singleton] at hcnew
        subst hcnew
        rw [hPhiNew, hifnew, hlenNew]
        simp only [chunkMetadataFor]
        omega
    · -- the chain of gap-free spans extends to the new chunk
      show List.Chain' (fun a b => b.metadata.startPosition ≤ a.metadata.endPosition)
        (out ++ [⟨doc.id, String.mk (trimChars buf), idx, none,
          chunkMetadataFor doc start buf⟩])
      rw [List.chain'_append]
      refine ⟨hChain, List.chain'_singleton _, ?_⟩
      intro x hx y hy
      simp only [List.head?_cons, Option.mem_def, Option.some.injEq] at hy
      subst hy
      have hx' : out.getLast? = some x := hx
      rw [hx'] at hLast
      simpa [chunkMetadataFor] using hLast
    · -- the first emitted chunk starts at position zero
      intro c hc
      cases houtnil : out with
      | nil =>
        rw [houtnil] at hc
        simp only [List.nil_append, List.head?_cons, Option.some.injEq] at hc
        rw [houtnil] at hLast
        simp only [List.getLast?_nil] at hLast
        rw [← hc]
        simpa [chunkMetadataFor] using hLast
      | cons o os =>
        rw [houtnil] at hc
        simp only [List.cons_append, List.head?_cons, Option.some.injEq] at hc
        rw [← hc]
        exact hHead _ (by rw [houtnil]; rfl)
    · -- the running start never passes the last emitted end
      simp only [List.getLast?_concat, chunkMetadataFor]
      omega
    · rw [hPhiOld, hifold, hPhiNew, hifnew, hlenNew]
      omega
    · rw [hPhiOld, hifold, hPhiNew, hifnew, hlenNew]
      omega
  · -- append the sentence to the running buffer
    rw [if_neg hcl]
    have hPhiOld : chunkPhi ⟨buf, idx, start, out⟩ =
        start + buf.length + (if buf.isEmpty then 0 else 1) := rfl
    have hPhiNew : chunkPhi
        ⟨buf ++ (if buf.isEmpty then [] else [' ']) ++ s, idx, start, out⟩ =
        start + (buf ++ (if buf.isEmpty then [] else [' ']) ++ s).length +
          (if (buf ++ (if buf.isEmpty then [] else [' ']) ++ s).isEmpty then 0 else 1) := rfl
    have hlen : (buf ++ (if buf.isEmpty then ([] : List Char) else [' ']) ++ s).length =
        buf.length + (if buf.isEmpty then 0 else 1) + s.length := by
      simp only [List.length_append]
      split_ifs <;> rfl
    have he' :
        (if (buf ++ (if buf.isEmpty then ([] : List Char) else [' ']) ++ s).isEmpty
          then (0 : Nat) else 1) ≤ 1 := by
      split_ifs <;> omega
    refine ⟨⟨?_, hChain, hHead, hLast⟩, ?_, ?_⟩
    · intro c hc
      have hE := hEnds c hc
      rw [hPhiOld] at hE
      rw [hPhiNew, hlen]
      omega
    · rw [hPhiOld, hPhiNew, hlen]
      omega
    · rw [hPhiOld, hPhiNew, hlen]
      omega

theorem chunkFold_props (doc : Document) :
    ∀ (sentences : List (List Char)) (st : ChunkState), chunkInv st →
      chunkInv (sentences.foldl (chunkStep doc) st) ∧
      chunkPhi st ≤ chunkPhi (sentences.foldl (chunkStep doc) st) ∧
      chunkPhi (sentences.foldl (chunkStep doc) st) ≤
        chunkPhi st + sentLenBound sentences
  | [], st, h => ⟨h, le_refl _, by simp [sentLenBound]⟩
  | s :: rest, st, h => by
    rw [List.foldl_cons]
    obtain ⟨h1, h2, h3⟩ := chunkStep_props doc st s h
    obtain ⟨g1, g2, g3⟩ := chunkFold_props doc rest (chunkStep doc st s) h1
    refine ⟨g1, le_trans h2 g2, ?_⟩
    simp only [sentLenBound, List.map_cons, List.sum_cons, List.length_cons] at g3 ⊢
    omega

/-- Claim C2 (amended): the chunker's spans have no gaps — the first chunk
starts at position 0 and every later chunk starts at or before the previous
chunk's end — and every span ends within the document; but the spans need
not reach the end of the document content, because the sentence splitter
discards the separator whitespace and the chunker rejoins sentences with
single spaces (see the counterexample, where a two-space separator loses
one position). -/
theorem claim_C2_chunk_spans (doc : Document) :
    (∀ c, (chunkDocument doc).head? = some c → c.metadata.startPosition = 0) ∧
    List.Chain' (fun a b => b.metadata.startPosition ≤ a.metadata.endPosition)
      (chunkDocument doc) ∧
    (∀ c ∈ chunkDocument doc, c.metadata.endPosition ≤ doc.content.toList.length) := by
  have hsb := splitSentences_bound doc.content.toList
  have hinit : chunkInv ⟨[], 0, 0, []⟩ := by
    refine ⟨?_, List.chain'_nil, ?_, rfl⟩
    · intro c hc
      simp at hc
    · intro c hc
      simp at hc
  obtain ⟨hInv, hMono, hBound⟩ :=
    chunkFold_props doc (splitSentences doc.content.toList) ⟨[], 0, 0, []⟩ hinit
  have hPhiF : chunkPhi (chunkFoldState doc) ≤ doc.content.toList.length + 1 := by
    rw [chunkFoldState]
    have hPhi0 : chunkPhi ⟨[], 0, 0, []⟩ = 0 := rfl
    rw [hPhi0] at hBound
    omega
  obtain ⟨hEnds, hChain, hHead, hLast⟩ := hInv
  have hEndsF : ∀ c ∈ (chunkFoldState doc).out,
      c.metadata.endPosition + 1 ≤ chunkPhi (chunkFoldState doc) := by
    rw [chunkFoldState]
    exact hEnds
  have hChainF : List.Chain'
      (fun a b => b.metadata.startPosition ≤ a.metadata.endPosition)
      (chunkFoldState doc).out := by
    rw [chunkFoldState]
    exact hChain
  have hHeadF : ∀ c, (chunkFoldState doc).out.head? = some c →
      c.metadata.startPosition = 0 := by
    rw [chunkFoldState]
    exact hHead
  have hLastF : (match (chunkFoldState doc).out.getLast? with
      | some c => (chunkFoldState doc).startPosition ≤ c.metadata.endPosition
      | none => (chunkFoldState doc).startPosition = 0) := by
    rw [chunkFoldState]
    exact hLast
  rw [chunkDocument]
  split_ifs with htrim
  · refine ⟨hHeadF, hChainF, ?_⟩
    intro c hc
    have := hEndsF c hc
    omega
  · have hbuf_ne : (chunkFoldState doc).buffer ≠ [] := by
      intro hbnil
      apply htrim
      rw [hbnil]
      rfl
    have hPhiF_eq : chunkPhi (chunkFoldState doc) =
        (chunkFoldState doc).startPosition + (chunkFoldState doc).buffer.length + 1 :=
      chunkPhi_of_ne_nil hbuf_ne
    refine ⟨?_, ?_, ?_⟩
    · intro c hc
      cases houtnil : (chunkFoldState doc).out with
      | nil =>
        rw [houtnil] at hc
        simp only [List.nil_append, List.head?_cons, Option.some.injEq] at hc
        subst hc
        rw [houtnil] at hLastF
        simp only [List.getLast?_nil] at hLastF
        simpa [chunkMetadataFor] using hLastF
      | cons o os =>
        rw [houtnil] at hc
        simp only [List.cons_append, List.head?_cons, Option.some.injEq] at hc
        rw [← hc]
        exact hHeadF _ (by rw [houtnil]; rfl)
    · rw [List.chain'_append]
      refine ⟨hChainF, List.chain'_singleton _, ?_⟩
      intro x hx y hy
      simp only [List.head?_cons, Option.mem_def, Option.some.injEq] at hy
      subst hy
      have hx' : (chunkFoldState doc).out.getLast? = some x := hx
      rw [hx'] at hLastF
      simpa [chunkMetadataFor] using hLastF
    · intro c hc
      rcases List.mem_append.mp hc with hcold | hcnew
      · have := hEndsF c hcold
        omega
      · simp only [List.mem_singleton] at hcnew
        subst hcnew
        simp only [chunkMetadataFor]
        omega

/-- Counterexample to claim C2 as stated: the document "a.  b" (with a
two-space sentence separator, five characters long) produces a single chunk
whose span is `[0, 4)` — the last chunk's `endPosition` does not reach the
length of the document content. -/
theorem claim_C2_counterexample :
    (chunkDocument demoGapDoc).map
      (fun c => (c.metadata.startPosition, c.metadata.endPosition)) = [(0, 4)] ∧
    demoGapDoc.content.toList.length = 5 := by
  with_unfolding_all decide

/-- Witness for claim C2 (amended) on a gap-free document. -/
theorem claim_C2_witness :
    demoPlainChunk.metadata.startPosition = 0 ∧
    demoPlainChunk.metadata.endPosition ≤ demoPlainDoc.content.toList.length :=
  ⟨(claim_C2_chunk_spans demoPlainDoc).1 demoPlainChunk
     (by with_unfolding_all decide),
   (claim_C2_chunk_spans demoPlainDoc).2.2 demoPlainChunk
     (by with_unfolding_all decide)⟩

end F1
